import Mathlib

/-!
Shallow embedding of the completion core of `buffer-language-server`
(`src/main.rs`).  Buffer text is modelled as `List Char`; Rust byte offsets
are tracked explicitly through the UTF-8 width of each scalar value, so the
byte/character index mixing of the source is preserved faithfully.
-/

namespace BufferLS

/-- Cursor coordinate as supplied by the editor: zero-based line and
character-within-line indices (`tower_lsp::lsp_types::Position`). -/
structure Position where
  line : Nat
  character : Nat
deriving DecidableEq

/-- The eight character categories of `enum CharCategory` in `src/main.rs`. -/
inductive CharCategory where
  | Whitespace
  | Eol
  | Word
  | Punctuation
  | Unknown
  | Hiragana
  | Katakana
  | Kanji
deriving DecidableEq

/-- UTF-8 encoded width in bytes of one Unicode scalar value
(mirrors Rust `char::len_utf8`). -/
def utf8Len (c : Char) : Nat :=
  if c.toNat < 0x80 then 1
  else if c.toNat < 0x800 then 2
  else if c.toNat < 0x10000 then 3
  else 4

/-- Byte length of a text, Rust `str::len`. -/
def byteLen (s : List Char) : Nat :=
  (s.map utf8Len).sum

/-- Byte offsets of the characters of `s`, in order: the first components
produced by Rust `str::char_indices`. -/
def charIndices (s : List Char) : List Nat :=
  (List.range s.length).map (fun k => byteLen (s.take k))

/-- Rust `char_is_hiragana` (`src/main.rs`): Hiragana block, Kana
Extended-A/B, Kana Supplement, Small Kana Extension. -/
def char_is_hiragana (ch : Char) : Bool :=
  decide ((0x3041 ≤ ch.toNat ∧ ch.toNat ≤ 0x3096) ∨ (0x3099 ≤ ch.toNat ∧ ch.toNat ≤ 0x309F)
    ∨ (0x1B100 ≤ ch.toNat ∧ ch.toNat ≤ 0x1B12F) ∨ (0x1AFF0 ≤ ch.toNat ∧ ch.toNat ≤ 0x1AFFF)
    ∨ (0x1B000 ≤ ch.toNat ∧ ch.toNat ≤ 0x1B0FF) ∨ (0x1B130 ≤ ch.toNat ∧ ch.toNat ≤ 0x1B16F))

/-- Rust `char_is_katakana` (`src/main.rs`): Katakana block. -/
def char_is_katakana (ch : Char) : Bool :=
  decide (0x30A0 ≤ ch.toNat ∧ ch.toNat ≤ 0x30FF)

/-- Rust `char_is_kanji` (`src/main.rs`): CJK Unified Ideographs blocks and
extensions A-H plus CJK Compatibility Ideographs and its supplement. -/
def char_is_kanji (ch : Char) : Bool :=
  decide ((0x4E00 ≤ ch.toNat ∧ ch.toNat ≤ 0x9FFF) ∨ (0x3400 ≤ ch.toNat ∧ ch.toNat ≤ 0x4DBF)
    ∨ (0x20000 ≤ ch.toNat ∧ ch.toNat ≤ 0x2A6DF) ∨ (0x2A700 ≤ ch.toNat ∧ ch.toNat ≤ 0x2B739)
    ∨ (0x2B740 ≤ ch.toNat ∧ ch.toNat ≤ 0x2B81D) ∨ (0x2B820 ≤ ch.toNat ∧ ch.toNat ≤ 0x2CEA1)
    ∨ (0x2CEB0 ≤ ch.toNat ∧ ch.toNat ≤ 0x2EBE0) ∨ (0x30000 ≤ ch.toNat ∧ ch.toNat ≤ 0x3134A)
    ∨ (0x31350 ≤ ch.toNat ∧ ch.toNat ≤ 0x323AF) ∨ (0x2EBF0 ≤ ch.toNat ∧ ch.toNat ≤ 0x2EE5D)
    ∨ (0xF900 ≤ ch.toNat ∧ ch.toNat ≤ 0xFAFF) ∨ (0x2F800 ≤ ch.toNat ∧ ch.toNat ≤ 0x2FA1F))

/-- Rust `char_is_line_ending` (`src/main.rs`): LF, VT, FF, CR, NEL,
LINE SEPARATOR, PARAGRAPH SEPARATOR. -/
def char_is_line_ending (ch : Char) : Bool :=
  decide (ch.toNat = 0x000A ∨ ch.toNat = 0x000B ∨ ch.toNat = 0x000C ∨ ch.toNat = 0x000D
    ∨ ch.toNat = 0x0085 ∨ ch.toNat = 0x2028 ∨ ch.toNat = 0x2029)

/-- Rust `char_is_whitespace` (`src/main.rs`): the explicit space code points
(Ogham Space Mark commented out in the source) plus U+2000..U+200B. -/
def char_is_whitespace (ch : Char) : Bool :=
  decide (ch.toNat = 0x0009 ∨ ch.toNat = 0x0020 ∨ ch.toNat = 0x00A0 ∨ ch.toNat = 0x180E
    ∨ ch.toNat = 0x202F ∨ ch.toNat = 0x205F ∨ ch.toNat = 0x3000 ∨ ch.toNat = 0xFEFF
    ∨ (0x2000 ≤ ch.toNat ∧ ch.toNat ≤ 0x200B))

/-- Modelled from the spec: Rust `char::is_alphanumeric` (Unicode Alphabetic
or Number general categories).  Its table lives in the Rust standard library,
outside this repository; the spec says "any alphanumeric code point".
Modelled over the ASCII letters and digits — every non-ASCII code point this
development exercises is classified by an earlier script class. -/
def is_alphanumeric (ch : Char) : Bool :=
  decide ((0x41 ≤ ch.toNat ∧ ch.toNat ≤ 0x5A) ∨ (0x61 ≤ ch.toNat ∧ ch.toNat ≤ 0x7A)
    ∨ (0x30 ≤ ch.toNat ∧ ch.toNat ≤ 0x39))

/-- Rust `char_is_word` (`src/main.rs`): alphanumeric or underscore. -/
def char_is_word (ch : Char) : Bool :=
  is_alphanumeric ch || decide (ch.toNat = 0x5F)

/-- Modelled from the spec: Rust `char_is_punctuation` tests membership of the
code point's Unicode general category (from the external
`unicode_general_category` crate, outside this repository) in
other/open/close/initial/final/connector/dash punctuation or
math/currency/modifier symbol.  Modelled over the ASCII range, where those
categories are exactly the graphic non-alphanumeric characters. -/
def char_is_punctuation (ch : Char) : Bool :=
  decide ((0x21 ≤ ch.toNat ∧ ch.toNat ≤ 0x2F) ∨ (0x3A ≤ ch.toNat ∧ ch.toNat ≤ 0x40)
    ∨ (0x5B ≤ ch.toNat ∧ ch.toNat ≤ 0x60) ∨ (0x7B ≤ ch.toNat ∧ ch.toNat ≤ 0x7E))

/-- Rust `categorize_char` (`src/main.rs`): first-match-wins sequential
classification in the source's order. -/
def categorize_char (ch : Char) : CharCategory :=
  if char_is_hiragana ch then CharCategory.Hiragana
  else if char_is_katakana ch then CharCategory.Katakana
  else if char_is_kanji ch then CharCategory.Kanji
  else if char_is_line_ending ch then CharCategory.Eol
  else if char_is_whitespace ch then CharCategory.Whitespace
  else if char_is_word ch then CharCategory.Word
  else if char_is_punctuation ch then CharCategory.Punctuation
  else CharCategory.Unknown

/-- Rust `is_boundary` (`src/main.rs`). -/
def is_boundary (a b : Char) : Bool :=
  decide (categorize_char a ≠ categorize_char b)

/-- Split on every `'\n'`; always returns one more segment than there are
newlines (helper for the Rust `str::lines` model). -/
def splitOnNl : List Char → List (List Char)
  | [] => [[]]
  | c :: cs =>
      if c = '\n' then [] :: splitOnNl cs
      else
        match splitOnNl cs with
        | [] => [[c]]
        | l :: ls => (c :: l) :: ls

/-- Remove one trailing `'\r'` (helper for the Rust `str::lines` model). -/
def stripCr (l : List Char) : List Char :=
  match l.getLast? with
  | some c => if c = '\r' then l.dropLast else l
  | none => l

/-- Rust `str::lines`: segments split at `'\n'`, a trailing `'\r'` stripped
from every newline-terminated segment, and no final empty segment. -/
def rustLines (s : List Char) : List (List Char) :=
  let p := splitOnNl s
  (p.dropLast.map stripCr) ++
    (match p.getLast? with
     | some [] => []
     | some l => [l]
     | none => [])

/-- Rust `get_char_index_from_position` (`src/main.rs`).  `line_start` is a
byte count (`line.len() + 1` per preceding line); the sum with the character
coordinate is compared against the byte length of `s` but then used as a
CHARACTER index into `char_indices`, whose `nth(..).unwrap_or_default().0`
yields the byte offset of that character, or `0` when the index is past the
last character. -/
def line_start (s : List Char) (line : Nat) : Nat :=
  (((rustLines s).take line).map (fun l => byteLen l + 1)).sum

/-- The branch structure of Rust `get_char_index_from_position`; see
`line_start` for the byte count of the preceding lines. -/
def get_char_index_from_position (s : List Char) (pos : Position) : Nat :=
  if line_start s pos.line + pos.character > byteLen s then byteLen s
  else (charIndices s).getD (line_start s pos.line + pos.character) 0

/-- Character position whose byte offset in `s` is exactly `b`, when `b` is a
character boundary (helper for the `String::replace_range` model). -/
def charPosOfByte (s : List Char) (b : Nat) : Option Nat :=
  (List.range (s.length + 1)).find? (fun k => byteLen (s.take k) == b)

/-- Rust `String::replace_range (a..b, repl)`: `none` models the panic when
`a > b` or either byte offset is not a character boundary of `s`. -/
def replace_range (s : List Char) (a b : Nat) (repl : List Char) : Option (List Char) :=
  if a ≤ b then
    match charPosOfByte s a, charPosOfByte s b with
    | some i, some j => some (s.take i ++ repl ++ s.drop j)
    | _, _ => none
  else none

/-- The ranged branch of `did_change` (`src/main.rs`): both offsets are
computed against the text before the edit, then `replace_range` is applied. -/
def did_change_range (text : List Char) (rs re : Position) (repl : List Char) :
    Option (List Char) :=
  replace_range text (get_char_index_from_position text rs)
    (get_char_index_from_position text re) repl

/-- The accumulation loop of `find_word_before_cursor` (`src/main.rs`): push
characters of the reversed prefix until `is_boundary ch next` holds, where
`next` defaults to `' '` past the end (`unwrap_or(' ')`). -/
def take_word : List Char → List Char
  | [] => []
  | ch :: rest => ch :: (if is_boundary ch (rest.headD ' ') then [] else take_word rest)

/-- Body of `find_word_before_cursor` once the current line is fetched: the
source takes `current_line.char_indices().nth(character).unwrap_or_default().0`
as a byte offset and keeps the text before it, so the kept character count is
`character` when `character < line.length` and `0` otherwise; the prefix is
reversed and scanned by the word loop. -/
def findFromLine (line : List Char) (character : Nat) : List Char :=
  take_word ((line.take (if character < line.length then character else 0)).reverse)

/-- Rust `find_word_before_cursor` (`src/main.rs`): the current line is
`text.lines().nth(position.line).unwrap_or_default()`. -/
def find_word_before_cursor (text : List Char) (pos : Position) : List Char :=
  findFromLine ((rustLines text).getD pos.line []) pos.character

/-- Loop of Rust `split` (`src/main.rs`).  `cur` is the reversed run of
characters `s[word_start..i]` accumulated since the last category change;
`result.push(&s[word_start..i])` becomes appending `cur.reverse`, and the
final `if word_start < s.len()` push is the non-empty check on `cur`. -/
def splitLoop : List Char → List Char → CharCategory → List (List Char) → List (List Char)
  | [], cur, _, acc => if cur = [] then acc else acc ++ [cur.reverse]
  | ch :: rest, cur, last, acc =>
      if categorize_char ch ≠ last then
        splitLoop rest [ch] (categorize_char ch) (acc ++ [cur.reverse])
      else
        splitLoop rest (ch :: cur) last acc

/-- Rust `split` (`src/main.rs`): `last_category` starts from the first
character (`chars().next().unwrap_or_default()`, the NUL default). -/
def split (s : List Char) : List (List Char) :=
  splitLoop s [] (categorize_char (s.headD (Char.ofNat 0))) []

/-- Rust `completion` (`src/main.rs`): the tokens are deduplicated
(`HashSet::from_iter`, modelled as `List.dedup`; the source's iteration order
is unspecified) and every token equal to `find_word_before_cursor`'s result is
filtered out; the survivors become the completion labels. -/
def completion (text : List Char) (pos : Position) : List (List Char) :=
  ((split text).dedup).filter (fun w => decide (w ≠ find_word_before_cursor text pos))

/-- Category of a token, read off its first character (tokens produced by
`split` are non-empty and category-uniform, so this is their category). -/
def tokCat (t : List Char) : CharCategory :=
  categorize_char (t.headD (Char.ofNat 0))

/-- The in-progress word as the spec describes it: the maximal run of
same-category characters of the line ending immediately left of the cursor,
in source order. -/
def runBeforeCursor (line : List Char) (k : Nat) : List Char :=
  match (line.take k).reverse with
  | [] => []
  | c :: _ =>
      ((line.take k).reverse.takeWhile
        (fun x => decide (categorize_char x = categorize_char c))).reverse

/-! ### Helper lemmas -/

/-- A token is well-formed when it is non-empty and all of its characters
share its category. -/
def GoodTok (t : List Char) : Prop :=
  t ≠ [] ∧ ∀ c ∈ t, categorize_char c = tokCat t

lemma tokCat_of_uniform {t : List Char} {cat : CharCategory} (hne : t ≠ [])
    (h : ∀ c ∈ t, categorize_char c = cat) : tokCat t = cat := by
  cases t with
  | nil => exact absurd rfl hne
  | cons a l => exact h a (List.mem_cons_self a l)

lemma splitLoop_join (rest : List Char) : ∀ (cur : List Char) (last : CharCategory)
    (acc : List (List Char)),
    (splitLoop rest cur last acc).flatten = acc.flatten ++ cur.reverse ++ rest := by
  induction rest with
  | nil =>
      intro cur last acc
      by_cases h : cur = [] <;> simp [splitLoop, h]
  | cons ch rest ih =>
      intro cur last acc
      by_cases h : categorize_char ch = last
      · rw [splitLoop, if_neg (not_not_intro h), ih]
        simp
      · rw [splitLoop, if_pos h, ih]
        simp

lemma splitLoop_runs (rest : List Char) : ∀ (cur : List Char) (last : CharCategory)
    (acc : List (List Char)),
    (cur = [] → acc = []) →
    (cur = [] → last = categorize_char (rest.headD (Char.ofNat 0))) →
    (∀ c ∈ cur, categorize_char c = last) →
    (∀ t ∈ acc, GoodTok t) →
    List.Chain' (fun a b : List Char => tokCat a ≠ tokCat b) (acc ++ [cur.reverse]) →
    (∀ t ∈ splitLoop rest cur last acc, GoodTok t) ∧
    List.Chain' (fun a b : List Char => tokCat a ≠ tokCat b) (splitLoop rest cur last acc) := by
  induction rest with
  | nil =>
      intro cur last acc h0 h5 h1 h2 h4
      by_cases hc : cur = []
      · rw [splitLoop, if_pos hc, h0 hc]
        simp
      · rw [splitLoop, if_neg hc]
        refine ⟨?_, h4⟩
        intro t ht
        rcases List.mem_append.mp ht with ht | ht
        · exact h2 t ht
        · rw [List.mem_singleton.mp ht]
          have hne : cur.reverse ≠ [] := by simpa using hc
          have hcat : tokCat cur.reverse = last :=
            tokCat_of_uniform hne (fun c hcm => h1 c (List.mem_reverse.mp hcm))
          exact ⟨hne, fun c hcm => by rw [hcat]; exact h1 c (List.mem_reverse.mp hcm)⟩
  | cons ch rest ih =>
      intro cur last acc h0 h5 h1 h2 h4
      by_cases h : categorize_char ch = last
      · rw [splitLoop, if_neg (not_not_intro h)]
        apply ih
        · intro hx; cases hx
        · intro hx; cases hx
        · intro c hc
          rcases List.mem_cons.mp hc with rfl | hc
          · exact h
          · exact h1 c hc
        · exact h2
        · by_cases hc : cur = []
          · rw [hc, h0 hc]
            simp
          · have hne : cur.reverse ≠ [] := by simpa using hc
            have hhead : (ch :: cur).reverse.headD (Char.ofNat 0)
                = cur.reverse.headD (Char.ofNat 0) := by
              cases hcr : cur.reverse with
              | nil => exact absurd hcr hne
              | cons a t => simp [List.reverse_cons, hcr]
            rw [List.chain'_append] at h4 ⊢
            refine ⟨h4.1, List.chain'_singleton _, ?_⟩
            intro x hx y hy
            simp only [List.head?_cons, Option.mem_def, Option.some_inj] at hy
            subst hy
            have hlink := h4.2.2 x hx cur.reverse (by simp)
            have htc : tokCat ((ch :: cur).reverse) = tokCat cur.reverse := by
              unfold tokCat
              rw [hhead]
            rw [htc]
            exact hlink
      · have hcur : cur ≠ [] := by
          intro hc
          exact h (by rw [h5 hc]; rfl)
        have hne : cur.reverse ≠ [] := by simpa using hcur
        have hcat : tokCat cur.reverse = last :=
          tokCat_of_uniform hne (fun c hcm => h1 c (List.mem_reverse.mp hcm))
        rw [splitLoop, if_pos h]
        apply ih
        · intro hx; cases hx
        · intro hx; cases hx
        · intro c hc
          rw [List.mem_singleton.mp hc]
        · intro t ht
          rcases List.mem_append.mp ht with ht | ht
          · exact h2 t ht
          · rw [List.mem_singleton.mp ht]
            exact ⟨hne, fun c hcm => by rw [hcat]; exact h1 c (List.mem_reverse.mp hcm)⟩
        · rw [List.chain'_append]
          refine ⟨h4, List.chain'_singleton _, ?_⟩
          intro x hx y hy
          simp only [List.head?_cons, Option.mem_def, Option.some_inj] at hy
          subst hy
          rw [Option.mem_def, List.getLast?_concat, Option.some_inj] at hx
          subst hx
          have : tokCat [ch].reverse = categorize_char ch := rfl
          rw [this, hcat]
          exact fun hh => h hh.symm

lemma take_word_eq (r : List Char) :
    take_word r
      = r.takeWhile (fun c => decide (categorize_char c = categorize_char (r.headD ' '))) := by
  induction r with
  | nil => rfl
  | cons c0 rest ih =>
      cases rest with
      | nil =>
          rw [take_word]
          by_cases hb : is_boundary c0 (List.headD [] ' ') = true <;>
            simp [hb, take_word, List.takeWhile]
      | cons c1 rest' =>
          rw [List.headD_cons]
          by_cases h : categorize_char c1 = categorize_char c0
          · have hb : is_boundary c0 ((c1 :: rest').headD ' ') = false := by
              simp [is_boundary, List.headD_cons, h]
            rw [take_word, hb]
            simp only [Bool.false_eq_true, if_false]
            rw [ih, List.headD_cons]
            have hp : (fun c => decide (categorize_char c = categorize_char c1))
                = (fun c => decide (categorize_char c = categorize_char c0)) := by
              funext c
              rw [h]
            rw [hp]
            simp [List.takeWhile_cons, h]
          · have hb : is_boundary c0 ((c1 :: rest').headD ' ') = true := by
              simp only [is_boundary, List.headD_cons, decide_eq_true_eq]
              exact fun hh => h hh.symm
            rw [take_word, hb]
            simp only [if_true]
            rw [List.takeWhile_cons_of_pos (by simp),
              List.takeWhile_cons_of_neg (by simp [h])]

lemma mem_of_mem_take_word {c : Char} (r : List Char) (h : c ∈ take_word r) : c ∈ r := by
  induction r with
  | nil => simp [take_word] at h
  | cons a t ih =>
      rw [take_word] at h
      rcases List.mem_cons.mp h with rfl | h
      · exact List.mem_cons_self _ _
      · by_cases hb : is_boundary a (t.headD ' ') = true
        · rw [if_pos hb] at h
          cases h
        · rw [if_neg hb] at h
          exact List.mem_cons_of_mem _ (ih h)

lemma findFromLine_eq_rev_run (line : List Char) (k : Nat) (hk : k < line.length) :
    findFromLine line k = (runBeforeCursor line k).reverse := by
  unfold findFromLine runBeforeCursor
  rw [if_pos hk]
  split
  · next heq =>
      rw [heq, take_word, List.reverse_nil]
  · next c t heq =>
      rw [heq, List.reverse_reverse, take_word_eq, List.headD_cons]

lemma byteLen_append (a b : List Char) : byteLen (a ++ b) = byteLen a + byteLen b := by
  simp [byteLen]

lemma byteLen_take_le (s : List Char) (k : Nat) : byteLen (s.take k) ≤ byteLen s := by
  conv_rhs => rw [← List.take_append_drop k s]
  rw [byteLen_append]
  exact Nat.le_add_right _ _

lemma charIndices_getD (s : List Char) (k : Nat) :
    (charIndices s).getD k 0 = if k < s.length then byteLen (s.take k) else 0 := by
  by_cases h : k < s.length
  · rw [if_pos h]
    rw [List.getD_eq_getElem?_getD]
    unfold charIndices
    rw [List.getElem?_map, List.getElem?_range h]
    rfl
  · rw [if_neg h]
    apply List.getD_eq_default
    unfold charIndices
    simpa using Nat.le_of_not_lt h

/-! ### Claim theorems -/

/-- C2: Tokenizer round-trip: for every input, concatenating the tokens of
`split` in order reproduces the input exactly; every token is non-empty and
all of its characters share a single category; adjacent tokens never share a
category; the empty input yields an empty sequence and a single-character
input yields exactly one single-character token. -/
theorem C2_tokenizer_round_trip (s : List Char) :
    (split s).flatten = s ∧
    (∀ t ∈ split s, t ≠ [] ∧ ∀ c ∈ t, categorize_char c = tokCat t) ∧
    List.Chain' (fun a b : List Char => tokCat a ≠ tokCat b) (split s) ∧
    split ([] : List Char) = [] ∧
    (∀ c : Char, split [c] = [[c]]) := by
  have h := splitLoop_runs s [] (categorize_char (s.headD (Char.ofNat 0))) []
    (fun _ => rfl) (fun _ => rfl) (by intro c hc; cases hc) (by intro t ht; cases ht)
    (by simp)
  refine ⟨?_, ?_, ?_, rfl, ?_⟩
  · rw [split, splitLoop_join]
    simp
  · intro t ht
    exact h.1 t ht
  · exact h.2
  · intro c
    simp [split, splitLoop]

/-- Witness for C2 at a concrete input. -/
theorem C2_witness :
    "ab".toList ∈ split "ab x".toList ∧
    ("ab".toList ≠ [] ∧ ∀ c ∈ "ab".toList, categorize_char c = tokCat "ab".toList) :=
  ⟨by decide, (C2_tokenizer_round_trip "ab x".toList).2.1 "ab".toList (by decide)⟩

/-- C7: Position clamp: the returned value never exceeds the byte length of
the text, and it is always the byte offset of an exact character boundary
(the boundary after the first `k` characters, for some `k`). -/
theorem C7_position_clamp (s : List Char) (pos : Position) :
    get_char_index_from_position s pos ≤ byteLen s ∧
    ∃ k, k ≤ s.length ∧ byteLen (s.take k) = get_char_index_from_position s pos := by
  unfold get_char_index_from_position
  by_cases h : line_start s pos.line + pos.character > byteLen s
  · rw [if_pos h]
    exact ⟨Nat.le_refl _, s.length, Nat.le_refl _, by rw [List.take_length]⟩
  · rw [if_neg h, charIndices_getD]
    by_cases h2 : line_start s pos.line + pos.character < s.length
    · rw [if_pos h2]
      exact ⟨byteLen_take_le s _, _, Nat.le_of_lt h2, rfl⟩
    · rw [if_neg h2]
      exact ⟨Nat.zero_le _, 0, Nat.zero_le _, rfl⟩

/-- C8: the backward scan is confined to the cursor's line: two texts whose
line at the cursor's line index coincide give the same in-progress word, and
every character of the word is a character of that line. -/
theorem C8_scan_confined_to_line (t1 t2 : List Char) (pos : Position)
    (h : (rustLines t1).getD pos.line [] = (rustLines t2).getD pos.line []) :
    find_word_before_cursor t1 pos = find_word_before_cursor t2 pos ∧
    ∀ c ∈ find_word_before_cursor t1 pos, c ∈ (rustLines t1).getD pos.line [] := by
  constructor
  · rw [find_word_before_cursor, find_word_before_cursor, h]
  · intro c hc
    rw [find_word_before_cursor, findFromLine] at hc
    have hc2 := List.mem_reverse.mp (mem_of_mem_take_word _ hc)
    exact List.take_subset _ _ hc2

/-- Witness for C8 at concrete inputs sharing their second line. -/
theorem C8_witness :
    (rustLines "ab\ncd".toList).getD 1 [] = (rustLines "zz\ncd".toList).getD 1 [] ∧
    find_word_before_cursor "ab\ncd".toList ⟨1, 1⟩
      = find_word_before_cursor "zz\ncd".toList ⟨1, 1⟩ :=
  ⟨by decide, (C8_scan_confined_to_line "ab\ncd".toList "zz\ncd".toList ⟨1, 1⟩ (by decide)).1⟩

/-- C10: the backward scan returns the REVERSE of the maximal same-category
run ending immediately left of the cursor when the cursor is strictly inside
its line; when the character index is at or past the line's character count it
returns the empty string; and the completion operation excludes a vocabulary
token exactly when the token equals the returned (reversed) string. -/
theorem C10_reversed_scan (text : List Char) (pos : Position) :
    (pos.character < ((rustLines text).getD pos.line []).length →
      find_word_before_cursor text pos
        = (runBeforeCursor ((rustLines text).getD pos.line []) pos.character).reverse) ∧
    (((rustLines text).getD pos.line []).length ≤ pos.character →
      find_word_before_cursor text pos = []) ∧
    (∀ w, w ∈ completion text pos ↔
      w ∈ split text ∧ w ≠ find_word_before_cursor text pos) := by
  refine ⟨?_, ?_, ?_⟩
  · intro h
    rw [find_word_before_cursor]
    exact findFromLine_eq_rev_run _ _ h
  · intro h
    rw [find_word_before_cursor, findFromLine, if_neg (Nat.not_lt.mpr h), List.take_zero,
      List.reverse_nil, take_word]
  · intro w
    rw [completion, List.mem_filter, List.mem_dedup, decide_eq_true_eq]

/-- Witness for C10 at concrete inputs: cursor inside the line, and cursor
past the end of the line. -/
theorem C10_witness :
    find_word_before_cursor "ab".toList ⟨0, 1⟩
      = (runBeforeCursor ((rustLines "ab".toList).getD 0 []) 1).reverse ∧
    find_word_before_cursor "ab".toList ⟨0, 5⟩ = [] :=
  ⟨(C10_reversed_scan "ab".toList ⟨0, 1⟩).1 (by decide),
    (C10_reversed_scan "ab".toList ⟨0, 5⟩).2.1 (by decide)⟩

/-- C1 counterexample: in buffer `"ab ab"` with the cursor at line 0,
character 2, the in-progress word is `"ab"`, non-empty and present in the
vocabulary, yet `"ab"` IS in the returned candidate set (only its reversal
`"ba"` is filtered out). -/
theorem C1_counterexample :
    runBeforeCursor ((rustLines "ab ab".toList).getD 0 []) 2 = "ab".toList ∧
    "ab".toList ≠ ([] : List Char) ∧
    "ab".toList ∈ split "ab ab".toList ∧
    "ab".toList ∈ completion "ab ab".toList ⟨0, 2⟩ := by decide

/-- C1 amended: when the cursor is strictly inside its line, it is the
REVERSAL of the in-progress word that is excluded from the candidate set (the
string actually produced by the backward scan); the candidate set contains no
duplicate labels. -/
theorem C1_amended_exclusion (text : List Char) (pos : Position)
    (h1 : pos.character < ((rustLines text).getD pos.line []).length)
    (h2 : runBeforeCursor ((rustLines text).getD pos.line []) pos.character ≠ [])
    (h3 : (runBeforeCursor ((rustLines text).getD pos.line []) pos.character).reverse
        ∈ split text) :
    (runBeforeCursor ((rustLines text).getD pos.line []) pos.character).reverse
        ∉ completion text pos ∧
    (completion text pos).Nodup := by
  constructor
  · intro hmem
    rw [completion, List.mem_filter, decide_eq_true_eq] at hmem
    have hfind : find_word_before_cursor text pos
        = (runBeforeCursor ((rustLines text).getD pos.line []) pos.character).reverse := by
      rw [find_word_before_cursor]
      exact findFromLine_eq_rev_run _ _ h1
    exact hmem.2 hfind.symm
  · exact (List.nodup_dedup _).filter _

/-- Witness for the amended C1 at a concrete input whose reversed in-progress
word does occur in the vocabulary. -/
theorem C1_witness :
    (2 < ((rustLines "ab ba x".toList).getD 0 []).length ∧
      runBeforeCursor ((rustLines "ab ba x".toList).getD 0 []) 2 ≠ [] ∧
      (runBeforeCursor ((rustLines "ab ba x".toList).getD 0 []) 2).reverse
        ∈ split "ab ba x".toList) ∧
    ((runBeforeCursor ((rustLines "ab ba x".toList).getD 0 []) 2).reverse
        ∉ completion "ab ba x".toList ⟨0, 2⟩ ∧
      (completion "ab ba x".toList ⟨0, 2⟩).Nodup) :=
  ⟨by decide,
    C1_amended_exclusion "ab ba x".toList ⟨0, 2⟩ (by decide) (by decide) (by decide)⟩

/-- C3 counterexample: with buffer `"foo bar foo"` and cursor at (0, 11), the
backward scan does NOT identify `"foo"`: it returns the empty string, because
`char_indices().nth(11)` on the 11-character line is `None` and the
`unwrap_or_default` resolves the cursor to the start of the line. -/
theorem C3_counterexample :
    find_word_before_cursor "foo bar foo".toList ⟨0, 11⟩ ≠ "foo".toList := by decide

/-- C3 amended: the backward scan yields the empty string (the character
index 11 equals the line's character count), the tokenized vocabulary is the
set holding `foo`, a space, and `bar`, and the candidate set includes `"bar"`
(nothing is excluded). -/
theorem C3_amended_scenario :
    find_word_before_cursor "foo bar foo".toList ⟨0, 11⟩ = [] ∧
    (split "foo bar foo".toList).toFinset
      = ({"foo".toList, " ".toList, "bar".toList} : Finset (List Char)) ∧
    "bar".toList ∈ completion "foo bar foo".toList ⟨0, 11⟩ := by decide

/-- C4: at the failing input, the end coordinate (0, 7) of buffer
`"foo bar"` — one past the last character — resolves to byte offset 0 while
the start coordinate (0, 4) resolves to 4, so `replace_range(4..0, ..)`
panics (modelled as `none`) instead of completing normally with clamping. -/
theorem C4_did_change_panics :
    get_char_index_from_position "foo bar".toList ⟨0, 4⟩ = 4 ∧
    get_char_index_from_position "foo bar".toList ⟨0, 7⟩ = 0 ∧
    did_change_range "foo bar".toList ⟨0, 4⟩ ⟨0, 7⟩ "baz".toList = none := by decide

/-- C5: the documented scenario — range (0,4)..(0,7), replacement `"baz"`,
buffer `"foo bar"` — does not produce `"foo baz"`: the edit panics
(modelled as `none`). -/
theorem C5_scenario_panics :
    did_change_range "foo bar".toList ⟨0, 4⟩ ⟨0, 7⟩ "baz".toList ≠ some "foo baz".toList ∧
    did_change_range "foo bar".toList ⟨0, 4⟩ ⟨0, 7⟩ "baz".toList = none := by decide

/-- C9 counterexample: the mixed-script input tokenizes into four runs, not
five. -/
theorem C9_counterexample :
    ¬ (split "helloひらがなカタカナ漢字".toList).length = 5 := by decide

/-- C9 amended: the mixed-script input tokenizes into exactly the four runs
`"hello"`, `"ひらがな"`, `"カタカナ"`, `"漢字"`. -/
theorem C9_amended_scenario :
    split "helloひらがなカタカナ漢字".toList
      = ["hello".toList, "ひらがな".toList, "カタカナ".toList, "漢字".toList] := by decide

/-- C6: the classifier is a total function on scalar values returning the
first matching category in the precedence order Hiragana, Katakana, Kanji,
LineBreak, Whitespace, Word, Punctuation, Unknown; its Whitespace class is
exactly the explicit space code points of the source plus U+2000..U+200B, and
Ogham Space Mark U+1680 is not Whitespace. -/
theorem C6_classifier_precedence (ch : Char) :
    (char_is_hiragana ch = true → categorize_char ch = CharCategory.Hiragana) ∧
    (char_is_hiragana ch = false → char_is_katakana ch = true →
      categorize_char ch = CharCategory.Katakana) ∧
    (char_is_hiragana ch = false → char_is_katakana ch = false → char_is_kanji ch = true →
      categorize_char ch = CharCategory.Kanji) ∧
    (char_is_hiragana ch = false → char_is_katakana ch = false → char_is_kanji ch = false →
      char_is_line_ending ch = true → categorize_char ch = CharCategory.Eol) ∧
    (char_is_hiragana ch = false → char_is_katakana ch = false → char_is_kanji ch = false →
      char_is_line_ending ch = false → char_is_whitespace ch = true →
      categorize_char ch = CharCategory.Whitespace) ∧
    (char_is_hiragana ch = false → char_is_katakana ch = false → char_is_kanji ch = false →
      char_is_line_ending ch = false → char_is_whitespace ch = false →
      char_is_word ch = true → categorize_char ch = CharCategory.Word) ∧
    (char_is_hiragana ch = false → char_is_katakana ch = false → char_is_kanji ch = false →
      char_is_line_ending ch = false → char_is_whitespace ch = false →
      char_is_word ch = false → char_is_punctuation ch = true →
      categorize_char ch = CharCategory.Punctuation) ∧
    (char_is_hiragana ch = false → char_is_katakana ch = false → char_is_kanji ch = false →
      char_is_line_ending ch = false → char_is_whitespace ch = false →
      char_is_word ch = false → char_is_punctuation ch = false →
      categorize_char ch = CharCategory.Unknown) ∧
    (categorize_char ch = CharCategory.Whitespace ↔
      (ch.toNat = 0x0009 ∨ ch.toNat = 0x0020 ∨ ch.toNat = 0x00A0 ∨ ch.toNat = 0x180E
        ∨ ch.toNat = 0x202F ∨ ch.toNat = 0x205F ∨ ch.toNat = 0x3000 ∨ ch.toNat = 0xFEFF
        ∨ (0x2000 ≤ ch.toNat ∧ ch.toNat ≤ 0x200B))) ∧
    char_is_whitespace (Char.ofNat 0x1680) = false ∧
    categorize_char (Char.ofNat 0x1680) ≠ CharCategory.Whitespace := by
  have hch : categorize_char ch = CharCategory.Whitespace ↔
      (char_is_hiragana ch = false ∧ char_is_katakana ch = false ∧ char_is_kanji ch = false ∧
        char_is_line_ending ch = false ∧ char_is_whitespace ch = true) := by
    unfold categorize_char
    split_ifs with h1 h2 h3 h4 h5 h6 h7 <;> simp_all
  refine ⟨?_, ?_, ?_, ?_, ?_, ?_, ?_, ?_, ?_, by decide, by decide⟩
  · intro h1
    simp [categorize_char, h1]
  · intro h1 h2
    simp [categorize_char, h1, h2]
  · intro h1 h2 h3
    simp [categorize_char, h1, h2, h3]
  · intro h1 h2 h3 h4
    simp [categorize_char, h1, h2, h3, h4]
  · intro h1 h2 h3 h4 h5
    simp [categorize_char, h1, h2, h3, h4, h5]
  · intro h1 h2 h3 h4 h5 h6
    simp [categorize_char, h1, h2, h3, h4, h5, h6]
  · intro h1 h2 h3 h4 h5 h6 h7
    simp [categorize_char, h1, h2, h3, h4, h5, h6, h7]
  · intro h1 h2 h3 h4 h5 h6 h7
    simp [categorize_char, h1, h2, h3, h4, h5, h6, h7]
  · rw [hch]
    constructor
    · rintro ⟨-, -, -, -, hw⟩
      simpa [char_is_whitespace] using hw
    · intro h
      refine ⟨?_, ?_, ?_, ?_, ?_⟩
      · simp only [char_is_hiragana, decide_eq_false_iff_not]
        omega
      · simp only [char_is_katakana, decide_eq_false_iff_not]
        omega
      · simp only [char_is_kanji, decide_eq_false_iff_not]
        omega
      · simp only [char_is_line_ending, decide_eq_false_iff_not]
        omega
      · simp only [char_is_whitespace, decide_eq_true_eq]
        exact h

/-- Witness for C6 at a concrete hiragana scalar value. -/
theorem C6_witness : categorize_char (Char.ofNat 0x3042) = CharCategory.Hiragana :=
  (C6_classifier_precedence (Char.ofNat 0x3042)).1 (by decide)

end BufferLS
